import Mathlib

/-!
# Verification of the trendspyder series-computation engine

The repository ships a declaration file (`src/index.d.ts`) describing the
series-computation and pattern-recognition engine, together with a small
indicator script (`src/trendspider_indicator.js`).  The executable bodies of
the engine are not part of the repository, so every operation below is
modelled from the specification's description of the engine (windowed
reducers, sparse-series utilities, the ZigZag extractor and the trend
scorer) and checked against the properties and examples the specification
states.

Numeric values are modelled as elements of a linear ordered field
(instantiated at `ℚ` for the executable development, and at `ℝ` for the
standard-deviation bands, whose definition takes a square root).
A series is a list of optional values: `none` is the explicit
"no value" cell of the specification's data model.
-/

set_option linter.unusedSectionVars false

namespace TS

/-- A chart series: index-aligned cells, oldest first, `none` marking a
missing value. -/
abbrev Series (α : Type) : Type := List (Option α)

variable {α : Type} [LinearOrderedField α]

/-- The cell of a series at index `i`; reading out of range yields `none`,
the same signal as a missing cell. -/
def getCell (s : Series α) (i : ℕ) : Option α :=
  s.getD i none

/-- Collects a list of optional values into an optional list: `some` of all
the values when no cell is missing, `none` otherwise. -/
def collectSome : List (Option α) → Option (List α)
  | [] => some []
  | none :: _ => none
  | some v :: rest => (collectSome rest).map (fun w => v :: w)

/-- Modelled from the spec: the window of a series spanning
`[i - length + 1, i]`, as the list of its `length` cells. -/
def windowCells (s : Series α) (n i : ℕ) : List (Option α) :=
  (List.range n).map (fun k => getCell s (i + 1 - n + k))

/-- Modelled from the spec: the windowed-reducer contract.  `reduce s n f`
returns a series of the same length where element `i` is `f` of the window
ending at `i` when that window is fully populated, and `none` when the
window would reach before the chart start (`i + 1 < n`), when some cell in
the window is missing, or when the length is not positive. -/
def reduce (s : Series α) (n : ℕ) (f : List α → α) : Series α :=
  (List.range s.length).map (fun i =>
    if n = 0 ∨ i + 1 < n then none
    else (collectSome (windowCells s n i)).map f)

/-- Modelled from the spec: simple moving average — the arithmetic mean of
the window. -/
def sma (s : Series α) (n : ℕ) : Series α :=
  reduce s n (fun w => w.sum / (n : α))

/-- Modelled from the spec: element-wise addition of two series; a cell is
missing whenever either operand's cell is missing. -/
def add (s t : Series α) : Series α :=
  List.zipWith (fun a b =>
    match a, b with
    | some x, some y => some (x + y)
    | _, _ => none) s t

/-- Modelled from the spec: element-wise subtraction of two series; a cell
is missing whenever either operand's cell is missing. -/
def sub (s t : Series α) : Series α :=
  List.zipWith (fun a b =>
    match a, b with
    | some x, some y => some (x - y)
    | _, _ => none) s t

/-- Modelled from the spec: multiplication of a series by a constant
(a constant operand is normalized to a constant series, so the cell-wise
product keeps missing cells missing). -/
def mult (s : Series α) (c : α) : Series α :=
  s.map (fun a => a.map (fun x => x * c))

/-! ## Basic lemmas about cells and reducers -/

theorem getCell_eq_getElem? (s : Series α) (i : ℕ) :
    getCell s i = (s[i]?).getD none := by
  simp [getCell, List.getD_eq_getElem?_getD]

theorem getCell_of_lt {s : Series α} {i : ℕ} (h : i < s.length) :
    getCell s i = s[i] := by
  simp [getCell_eq_getElem?, List.getElem?_eq_getElem h]

theorem getCell_map_range {f : ℕ → Option α} {n i : ℕ} (h : i < n) :
    getCell ((List.range n).map f) i = f i := by
  rw [getCell_eq_getElem?]
  simp [List.getElem?_map, List.getElem?_range h]

theorem getCell_reduce {s : Series α} {n : ℕ} {f : List α → α} {i : ℕ}
    (h : i < s.length) :
    getCell (reduce s n f) i =
      if n = 0 ∨ i + 1 < n then none
      else (collectSome (windowCells s n i)).map f := by
  rw [reduce, getCell_map_range h]

theorem collectSome_eq_none_iff (l : List (Option α)) :
    collectSome l = none ↔ none ∈ l := by
  induction l with
  | nil => simp [collectSome]
  | cons a rest ih =>
      cases a with
      | none => simp [collectSome]
      | some v =>
          simp only [collectSome, List.mem_cons]
          constructor
          · intro h
            rcases hrest : collectSome rest with _ | w
            · exact Or.inr (ih.mp hrest)
            · rw [hrest] at h; simp at h
          · rintro (h | h)
            · exact absurd h.symm (Option.some_ne_none v)
            · rw [ih.mpr h]; rfl

theorem collectSome_of_no_none {l : List (Option α)} (h : none ∉ l) :
    collectSome l = some (l.map (fun c => c.getD 0)) := by
  induction l with
  | nil => rfl
  | cons a rest ih =>
      cases a with
      | none => exact absurd (List.mem_cons_self _ _) h
      | some v =>
          have : none ∉ rest := fun hr => h (List.mem_cons_of_mem _ hr)
          simp [collectSome, ih this]

theorem mem_windowCells_iff {s : Series α} {n i : ℕ} {c : Option α} :
    c ∈ windowCells s n i ↔ ∃ k < n, getCell s (i + 1 - n + k) = c := by
  simp only [windowCells, List.mem_map, List.mem_range]

theorem windowCells_no_none {s : Series α} {n i : ℕ}
    (h : ∀ k < n, getCell s (i + 1 - n + k) ≠ none) :
    none ∉ windowCells s n i := by
  intro hmem
  rcases mem_windowCells_iff.mp hmem with ⟨k, hk, hc⟩
  exact h k hk hc

/-- C1: for every series `s`, window length `n > 0` and index `i` of the
chart, `sma s n` at `i` is `none` exactly when `i < n - 1` or some cell of
the window `s[i-n+1..i]` is `none`; otherwise it is the arithmetic mean of
the `n` window values.  In particular `sma [1,2,3,4,5] 3` is
`[none, none, 2, 3, 4]`. -/
theorem sma_cell_spec (s : Series ℚ) (n i : ℕ) (hn : 0 < n) (hi : i < s.length) :
    (getCell (sma s n) i = none ↔
       i + 1 < n ∨ ∃ k < n, getCell s (i + 1 - n + k) = none)
    ∧ (n ≤ i + 1 → (∀ k < n, getCell s (i + 1 - n + k) ≠ none) →
        getCell (sma s n) i =
          some ((((List.range n).map
            (fun k => (getCell s (i + 1 - n + k)).getD 0)).sum) / (n : ℚ)))
    ∧ sma ([some 1, some 2, some 3, some 4, some 5] : Series ℚ) 3
        = [none, none, some 2, some 3, some 4] := by
  have hred := @getCell_reduce ℚ _ s n (fun w => w.sum / (n : ℚ)) i hi
  refine ⟨?_, ?_, ?_⟩
  · rw [sma, hred]
    by_cases hlt : i + 1 < n
    · simp [hn.ne', hlt]
    · rw [if_neg (by simp [hn.ne', hlt]), Option.map_eq_none']
      rw [collectSome_eq_none_iff]
      constructor
      · intro h; exact Or.inr (mem_windowCells_iff.mp h)
      · rintro (h | h)
        · exact absurd h hlt
        · exact mem_windowCells_iff.mpr h
  · intro hge hfull
    rw [sma, hred, if_neg (by omega), collectSome_of_no_none (windowCells_no_none hfull)]
    simp [windowCells, List.map_map, Function.comp_def]
  · show reduce _ 3 _ = _
    simp only [reduce, windowCells, getCell, sma]
    norm_num [List.range_succ, collectSome]

/-- Witness for C1: the theorem applied at the specification's example. -/
theorem sma_cell_spec_witness :
    sma ([some 1, some 2, some 3, some 4, some 5] : Series ℚ) 3
      = [none, none, some 2, some 3, some 4] :=
  (sma_cell_spec [some 1, some 2, some 3, some 4, some 5] 3 2
    (by decide) (by decide)).2.2

/-! ## Sparse series utilities -/

/-- A non-null point of a sparse series: its value and its candle index. -/
structure IndexedPoint (α : Type) where
  value : α
  candleIndex : ℕ
deriving DecidableEq

/-- Modelled from the spec: `indexed_points_of` scans a series and emits
`{value, index}` for every non-null cell, preserving order. -/
def indexed_points_of (s : Series α) : List (IndexedPoint α) :=
  (List.range s.length).filterMap
    (fun i => (getCell s i).map (fun v => ⟨v, i⟩))

/-- The nearest populated cell strictly before index `i`, with its index. -/
def prevAnchor (s : Series α) : ℕ → Option (ℕ × α)
  | 0 => none
  | (i + 1) =>
      match getCell s i with
      | some v => some (i, v)
      | none => prevAnchor s i

/-- Scans cells `start, start+1, …` (at most `fuel` of them) for the first
populated one. -/
def nextAnchorAux (s : Series α) : ℕ → ℕ → Option (ℕ × α)
  | 0, _ => none
  | (fuel + 1), start =>
      match getCell s start with
      | some v => some (start, v)
      | none => nextAnchorAux s fuel (start + 1)

/-- The nearest populated cell strictly after index `i`, with its index. -/
def nextAnchor (s : Series α) (i : ℕ) : Option (ℕ × α) :=
  nextAnchorAux s (s.length - (i + 1)) (i + 1)

/-- Modelled from the spec: `interpolate_sparse_series` fills each missing
cell lying between two populated cells — by linear interpolation in
`linear` mode, by repeating the left point's value in `constant` mode.
Cells before the first populated cell or after the last one stay missing
in both modes. -/
def interpolate_sparse_series (s : Series α) (mode : String) : Series α :=
  (List.range s.length).map (fun i =>
    match getCell s i with
    | some v => some v
    | none =>
        match prevAnchor s i, nextAnchor s i with
        | some jp, some kp =>
            if mode = "linear" then
              some (jp.2 + (kp.2 - jp.2) * ((i : α) - (jp.1 : α)) / ((kp.1 : α) - (jp.1 : α)))
            else if mode = "constant" then some jp.2
            else none
        | _, _ => none)

/-- Modelled from the spec: the inverse of `indexed_points_of` — the sparse
series holding exactly the given points at their indices. -/
def indexed_points_of_inverse (pts : List (ℕ × α)) : Series α :=
  (List.range (((pts.map Prod.fst).foldr max 0) + 1)).map
    (fun i => (pts.find? (fun p => p.1 == i)).map Prod.snd)

/-! ### Lemmas about the sparse utilities -/

theorem mem_indexed_points_of {s : Series α} {p : IndexedPoint α} :
    p ∈ indexed_points_of s ↔
      p.candleIndex < s.length ∧ getCell s p.candleIndex = some p.value := by
  simp only [indexed_points_of, List.mem_filterMap, List.mem_range]
  constructor
  · rintro ⟨i, hi, hp⟩
    rcases hc : getCell s i with _ | v
    · rw [hc] at hp; simp at hp
    · rw [hc] at hp
      simp only [Option.map_some', Option.some.injEq] at hp
      rw [← hp]
      exact ⟨hi, hc⟩
  · rintro ⟨hi, hc⟩
    exact ⟨p.candleIndex, hi, by rw [hc]; rfl⟩

theorem indexed_points_of_sorted (s : Series α) :
    (indexed_points_of s).Pairwise
      (fun p q => p.candleIndex < q.candleIndex) := by
  refine List.Pairwise.filterMap _ ?_ (List.pairwise_lt_range s.length)
  intro i j hij p hp q hq
  rcases hc : getCell s i with _ | v <;> rw [hc] at hp
  · simp at hp
  · rcases hd : getCell s j with _ | w <;> rw [hd] at hq
    · simp at hq
    · simp only [Option.mem_def, Option.map_some', Option.some.injEq] at hp hq
      subst hp
      subst hq
      simpa using hij

theorem interpolate_length (s : Series α) (mode : String) :
    (interpolate_sparse_series s mode).length = s.length := by
  simp [interpolate_sparse_series]

theorem getCell_interpolate {s : Series α} {mode : String} {i : ℕ}
    (h : i < s.length) :
    getCell (interpolate_sparse_series s mode) i =
      match getCell s i with
      | some v => some v
      | none =>
          match prevAnchor s i, nextAnchor s i with
          | some jp, some kp =>
              if mode = "linear" then
                some (jp.2 + (kp.2 - jp.2) * ((i : α) - (jp.1 : α)) / ((kp.1 : α) - (jp.1 : α)))
              else if mode = "constant" then some jp.2
              else none
          | _, _ => none := by
  rw [interpolate_sparse_series, getCell_map_range h]

theorem interpolate_preserves {s : Series α} {mode : String} {i : ℕ} {v : α}
    (h : i < s.length) (hv : getCell s i = some v) :
    getCell (interpolate_sparse_series s mode) i = some v := by
  rw [getCell_interpolate h, hv]

theorem prevAnchor_eq_some {s : Series α} {i j : ℕ} {a : α}
    (hji : j < i) (ha : getCell s j = some a)
    (hmid : ∀ m, j < m → m < i → getCell s m = none) :
    prevAnchor s i = some (j, a) := by
  induction i with
  | zero => omega
  | succ i ih =>
      rcases Nat.lt_succ_iff_lt_or_eq.mp hji with hlt | rfl
      · have hnone : getCell s i = none := hmid i hlt (Nat.lt_succ_self i)
        rw [prevAnchor, hnone]
        exact ih hlt (fun m h1 h2 => hmid m h1 (Nat.lt_succ_of_lt h2))
      · rw [prevAnchor, ha]

theorem prevAnchor_eq_none {s : Series α} {i : ℕ}
    (h : ∀ j, j < i → getCell s j = none) :
    prevAnchor s i = none := by
  induction i with
  | zero => rfl
  | succ i ih =>
      rw [prevAnchor, h i (Nat.lt_succ_self i)]
      exact ih (fun j hj => h j (Nat.lt_succ_of_lt hj))

theorem nextAnchorAux_eq_some {s : Series α} {fuel start k : ℕ} {b : α}
    (hk1 : start ≤ k) (hk2 : k < start + fuel) (hb : getCell s k = some b)
    (hmid : ∀ m, start ≤ m → m < k → getCell s m = none) :
    nextAnchorAux s fuel start = some (k, b) := by
  induction fuel generalizing start with
  | zero => omega
  | succ fuel ih =>
      rcases Nat.eq_or_lt_of_le hk1 with rfl | hlt
      · rw [nextAnchorAux, hb]
      · have hnone : getCell s start = none := hmid start le_rfl hlt
        rw [nextAnchorAux, hnone]
        exact ih hlt (by omega) (fun m h1 h2 => hmid m (by omega) h2)

theorem nextAnchorAux_eq_none {s : Series α} {fuel start : ℕ}
    (h : ∀ m, start ≤ m → getCell s m = none) :
    nextAnchorAux s fuel start = none := by
  induction fuel generalizing start with
  | zero => rfl
  | succ fuel ih =>
      rw [nextAnchorAux, h start le_rfl]
      exact ih (fun m hm => h m (by omega))

theorem nextAnchor_eq_some {s : Series α} {i k : ℕ} {b : α}
    (hik : i < k) (hk : k < s.length) (hb : getCell s k = some b)
    (hmid : ∀ m, i < m → m < k → getCell s m = none) :
    nextAnchor s i = some (k, b) := by
  exact nextAnchorAux_eq_some hik (by omega) hb
    (fun m h1 h2 => hmid m (by omega) h2)

theorem nextAnchor_eq_none {s : Series α} {i : ℕ}
    (h : ∀ k, i < k → getCell s k = none) :
    nextAnchor s i = none := by
  exact nextAnchorAux_eq_none (fun m hm => h m (by omega))

theorem getCell_eq_none_of_le {s : Series α} {i : ℕ} (h : s.length ≤ i) :
    getCell s i = none := by
  simp [getCell_eq_getElem?, List.getElem?_eq_none h]

/-- C5: `indexed_points_of` returns exactly one `{value, index}` point per
non-null cell, in strictly increasing index order, the value and index
being the cell's value and position; in particular on
`[null, null, 1, null, 2, null]` it returns the points `(1, 2)` and
`(2, 4)`. -/
theorem indexed_points_of_spec (s : Series ℚ) :
    (indexed_points_of s).Pairwise (fun p q => p.candleIndex < q.candleIndex)
    ∧ (∀ p ∈ indexed_points_of s,
        p.candleIndex < s.length ∧ getCell s p.candleIndex = some p.value)
    ∧ (∀ i v, i < s.length → getCell s i = some v →
        (⟨v, i⟩ : IndexedPoint ℚ) ∈ indexed_points_of s)
    ∧ indexed_points_of ([none, none, some 1, none, some 2, none] : Series ℚ)
        = [⟨1, 2⟩, ⟨2, 4⟩] := by
  refine ⟨indexed_points_of_sorted s, ?_, ?_, ?_⟩
  · intro p hp
    exact mem_indexed_points_of.mp hp
  · intro i v hi hv
    exact mem_indexed_points_of.mpr ⟨hi, hv⟩
  · rfl

/-- Witness for C5: the theorem applied at the specification's example. -/
theorem indexed_points_of_spec_witness :
    (⟨1, 2⟩ : IndexedPoint ℚ) ∈
      indexed_points_of ([none, none, some 1, none, some 2, none] : Series ℚ) :=
  (indexed_points_of_spec [none, none, some 1, none, some 2, none]).2.2.1 2 1
    (by decide) (by decide)

theorem interpolate_between (s : Series ℚ) (i j k : ℕ) (a b : ℚ)
    (hji : j < i) (hik : i < k) (hk : k < s.length)
    (hzero : getCell s i = none)
    (ha : getCell s j = some a) (hb : getCell s k = some b)
    (hmid : ∀ m, j < m → m < k → getCell s m = none) :
    getCell (interpolate_sparse_series s "linear") i
        = some (a + (b - a) * ((i : ℚ) - (j : ℚ)) / ((k : ℚ) - (j : ℚ)))
      ∧ getCell (interpolate_sparse_series s "constant") i = some a := by
  have hi : i < s.length := lt_trans hik hk
  have hprev : prevAnchor s i = some (j, a) :=
    prevAnchor_eq_some hji ha (fun m h1 h2 => hmid m h1 (lt_trans h2 hik))
  have hnext : nextAnchor s i = some (k, b) :=
    nextAnchor_eq_some hik hk hb (fun m h1 h2 => hmid m (lt_trans hji h1) h2)
  constructor
  · rw [getCell_interpolate hi, hzero, hprev, hnext]
    simp
  · rw [getCell_interpolate hi, hzero, hprev, hnext]
    show (if ("constant" : String) = "linear" then _ else _) = _
    rw [if_neg (by decide), if_pos rfl]

theorem series_ext {s t : Series α} (hlen : s.length = t.length)
    (h : ∀ i, i < s.length → getCell s i = getCell t i) : s = t := by
  apply List.ext_getElem hlen
  intro n h1 h2
  rw [← getCell_of_lt h1, ← getCell_of_lt h2]
  exact h n h1

theorem interpolate_outside {s : Series ℚ} {mode : String} {i : ℕ}
    (h : (∀ j, j ≤ i → getCell s j = none) ∨ (∀ k, i ≤ k → getCell s k = none)) :
    getCell (interpolate_sparse_series s mode) i = none := by
  by_cases hi : i < s.length
  · rw [getCell_interpolate hi]
    rcases h with h | h
    · rw [h i le_rfl, prevAnchor_eq_none (fun j hj => h j (le_of_lt hj))]
    · rw [h i le_rfl, nextAnchor_eq_none (fun k hk => h k (le_of_lt hk))]
      rcases prevAnchor s i with _ | jp <;> rfl
  · apply getCell_eq_none_of_le
    rw [interpolate_length]
    omega

/-- C6: `interpolate_sparse_series` fills each missing cell lying strictly
between two consecutive populated cells — by linear interpolation in
`linear` mode and with the left point's value in `constant` mode — while
cells before the first populated cell and after the last one stay `none`
in both modes; in particular on `[1, null, null, 4, null, 10, null]` with
`linear` it yields `[1, 2, 3, 4, 7, 10, null]`. -/
theorem interpolate_sparse_series_spec :
    (∀ (s : Series ℚ) (i j k : ℕ) (a b : ℚ),
       j < i → i < k → k < s.length →
       getCell s i = none → getCell s j = some a → getCell s k = some b →
       (∀ m, j < m → m < k → getCell s m = none) →
       getCell (interpolate_sparse_series s "linear") i
           = some (a + (b - a) * ((i : ℚ) - (j : ℚ)) / ((k : ℚ) - (j : ℚ)))
         ∧ getCell (interpolate_sparse_series s "constant") i = some a)
    ∧ (∀ (s : Series ℚ) (mode : String) (i : ℕ),
        ((∀ j, j ≤ i → getCell s j = none) ∨
         (∀ k, i ≤ k → getCell s k = none)) →
        getCell (interpolate_sparse_series s mode) i = none)
    ∧ interpolate_sparse_series
        ([some 1, none, none, some 4, none, some 10, none] : Series ℚ) "linear"
        = [some 1, some 2, some 3, some 4, some 7, some 10, none] := by
  refine ⟨fun s i j k a b h1 h2 h3 h4 h5 h6 h7 =>
    interpolate_between s i j k a b h1 h2 h3 h4 h5 h6 h7,
    fun s mode i h => interpolate_outside h, ?_⟩
  have hslen : ([some 1, none, none, some 4, none, some 10, none] : Series ℚ).length = 7 := rfl
  apply series_ext (by rw [interpolate_length]; rfl)
  intro n hn'
  have hn : n < 7 := by
    rw [interpolate_length, hslen] at hn'
    exact hn'
  interval_cases n
  · rw [interpolate_preserves (by rw [hslen]; norm_num)
      (show getCell ([some 1, none, none, some 4, none, some 10, none] : Series ℚ) 0
        = some 1 from rfl)]
    rfl
  · rw [(interpolate_between [some 1, none, none, some 4, none, some 10, none] 1 0 3 1 4
      (show 0 < 1 by norm_num) (show 1 < 3 by norm_num)
      (by rw [hslen]; norm_num) rfl rfl rfl
      (by intro m hm1 hm2; interval_cases m <;> rfl)).1]
    rw [show getCell ([some 1, some 2, some 3, some 4, some 7, some 10, none] : Series ℚ) 1
      = some 2 from rfl]
    norm_num
  · rw [(interpolate_between [some 1, none, none, some 4, none, some 10, none] 2 0 3 1 4
      (show 0 < 2 by norm_num) (show 2 < 3 by norm_num)
      (by rw [hslen]; norm_num) rfl rfl rfl
      (by intro m hm1 hm2; interval_cases m <;> rfl)).1]
    rw [show getCell ([some 1, some 2, some 3, some 4, some 7, some 10, none] : Series ℚ) 2
      = some 3 from rfl]
    norm_num
  · rw [interpolate_preserves (by rw [hslen]; norm_num)
      (show getCell ([some 1, none, none, some 4, none, some 10, none] : Series ℚ) 3
        = some 4 from rfl)]
    rfl
  · rw [(interpolate_between [some 1, none, none, some 4, none, some 10, none] 4 3 5 4 10
      (show 3 < 4 by norm_num) (show 4 < 5 by norm_num)
      (by rw [hslen]; norm_num) rfl rfl rfl
      (by intro m hm1 hm2; interval_cases m <;> rfl)).1]
    rw [show getCell ([some 1, some 2, some 3, some 4, some 7, some 10, none] : Series ℚ) 4
      = some 7 from rfl]
    norm_num
  · rw [interpolate_preserves (by rw [hslen]; norm_num)
      (show getCell ([some 1, none, none, some 4, none, some 10, none] : Series ℚ) 5
        = some 10 from rfl)]
    rfl
  · rw [interpolate_outside (Or.inr ?_)]
    · rfl
    · intro k hk
      rcases Nat.eq_or_lt_of_le hk with rfl | hlt
      · rfl
      · exact getCell_eq_none_of_le (by rw [hslen]; exact hlt)

/-- Witness for C6: the theorem applied at the example series, constant
mode, at the cell between the anchors at indexes 0 and 3. -/
theorem interpolate_sparse_series_spec_witness :
    getCell (interpolate_sparse_series
      ([some 1, none, none, some 4, none, some 10, none] : Series ℚ) "constant") 1
      = some 1 :=
  (interpolate_sparse_series_spec.1
    [some 1, none, none, some 4, none, some 10, none] 1 0 3 1 4
    (by decide) (by decide) (by decide) (by decide) (by decide) (by decide)
    (by intro m hm1 hm2; interval_cases m <;> rfl)).2

/-! ### The round trip through `indexed_points_of_inverse` -/

theorem le_foldr_max {l : List ℕ} {x : ℕ} (h : x ∈ l) : x ≤ l.foldr max 0 := by
  induction l with
  | nil => cases h
  | cons a rest ih =>
      rcases List.mem_cons.mp h with rfl | h
      · exact le_max_left _ _
      · exact le_trans (ih h) (le_max_right _ _)

theorem length_indexed_points_of_inverse (pts : List (ℕ × ℚ)) :
    (indexed_points_of_inverse pts).length
      = ((pts.map Prod.fst).foldr max 0) + 1 := by
  simp [indexed_points_of_inverse]

theorem getCell_indexed_points_of_inverse {pts : List (ℕ × ℚ)} {p : ℕ × ℚ}
    (hnodup : pts.Pairwise (fun p q => p.1 ≠ q.1)) (hp : p ∈ pts) :
    getCell (indexed_points_of_inverse pts) p.1 = some p.2 := by
  have hle : p.1 ≤ (pts.map Prod.fst).foldr max 0 :=
    le_foldr_max (List.mem_map_of_mem Prod.fst hp)
  rw [indexed_points_of_inverse, getCell_map_range (by omega)]
  have hsome : (pts.find? (fun q => q.1 == p.1)).isSome := by
    rw [List.find?_isSome]
    exact ⟨p, hp, by simp⟩
  rcases hq : pts.find? (fun q => q.1 == p.1) with _ | q
  · rw [hq] at hsome; simp at hsome
  · have hqmem : q ∈ pts := List.mem_of_find?_eq_some hq
    have hqfst : q.1 = p.1 := by
      have := List.find?_some hq
      simpa using this
    have hqp : q = p := by
      by_contra hne
      exact List.Pairwise.forall (fun a b hab => (Ne.symm hab))
        hnodup hqmem hp hne hqfst
    rw [hq, hqp]
    rfl

/-- C9: building the sparse series holding exactly a given duplicate-free
set of indexed points, interpolating it (in either mode) and re-extracting
the indexed points yields every original value at its original index. -/
theorem round_trip_spec (pts : List (ℕ × ℚ)) (mode : String)
    (hnodup : pts.Pairwise (fun p q => p.1 ≠ q.1)) :
    ∀ p ∈ pts,
      (⟨p.2, p.1⟩ : IndexedPoint ℚ) ∈
        indexed_points_of
          (interpolate_sparse_series (indexed_points_of_inverse pts) mode) := by
  intro p hp
  have hcell := getCell_indexed_points_of_inverse hnodup hp
  have hlt : p.1 < (indexed_points_of_inverse pts).length := by
    rw [length_indexed_points_of_inverse]
    have := le_foldr_max (List.mem_map_of_mem Prod.fst hp)
    omega
  have hkeep : getCell (interpolate_sparse_series
      (indexed_points_of_inverse pts) mode) p.1 = some p.2 :=
    interpolate_preserves hlt hcell
  apply mem_indexed_points_of.mpr
  constructor
  · rw [interpolate_length]
    exact hlt
  · exact hkeep

/-- Witness for C9: the round trip applied to two concrete points. -/
theorem round_trip_spec_witness :
    (⟨5, 2⟩ : IndexedPoint ℚ) ∈
      indexed_points_of (interpolate_sparse_series
        (indexed_points_of_inverse [(2, 5), (0, 1)]) "linear") :=
  round_trip_spec [(2, 5), (0, 1)] "linear" (by decide) (2, 5) (by decide)

/-! ## Recursive indicators: EMA, WILDMA, RSI, ATR -/

/-- Modelled from the spec: the seeded recursion shared by EMA and WILDMA
(Wilder smoothing).  The value is `none` before index `length - 1` and
outside the series, the seed at index `length - 1` is the SMA of the first
`length` values, and afterwards `out[i] = out[i-1] + a * (x[i] - out[i-1])`
for the smoothing constant `a`. -/
def recMA (a : ℚ) (x : List ℚ) (n : ℕ) : ℕ → Option ℚ
  | 0 => if n = 1 ∧ 0 < x.length then some ((x.take 1).sum / 1) else none
  | (i + 1) =>
      if x.length ≤ i + 1 then none
      else if i + 2 < n ∨ n = 0 then none
      else if i + 2 = n then some ((x.take n).sum / (n : ℚ))
      else (recMA a x n i).map (fun p => p + a * (x.getD (i + 1) 0 - p))

/-- Modelled from the spec: the EMA value at one index,
with smoothing constant `2 / (length + 1)`. -/
def emaVal (x : List ℚ) (n : ℕ) : ℕ → Option ℚ :=
  recMA (2 / ((n : ℚ) + 1)) x n

/-- Modelled from the spec: the WILDMA (RMA) value at one index,
with smoothing constant `1 / length`. -/
def wildmaVal (x : List ℚ) (n : ℕ) : ℕ → Option ℚ :=
  recMA (1 / (n : ℚ)) x n

/-- Modelled from the spec: the EMA as a series. -/
def ema (x : List ℚ) (n : ℕ) : Series ℚ :=
  (List.range x.length).map (fun i => emaVal x n i)

/-- Modelled from the spec: the WILDMA as a series. -/
def wildma (x : List ℚ) (n : ℕ) : Series ℚ :=
  (List.range x.length).map (fun i => wildmaVal x n i)

/-- The candle-to-candle deltas of a series of values. -/
def deltas (x : List ℚ) : List ℚ :=
  (List.range (x.length - 1)).map (fun k => x.getD (k + 1) 0 - x.getD k 0)

/-- The separated positive deltas. -/
def gains (x : List ℚ) : List ℚ :=
  (deltas x).map (fun d => max d 0)

/-- The separated negative deltas (as magnitudes). -/
def losses (x : List ℚ) : List ℚ :=
  (deltas x).map (fun d => max (-d) 0)

/-- Modelled from the spec: the RSI value at one index — Wilder smoothing
of the separated positive and negative deltas, with the divide-by-zero
guard giving 100 when the average loss is zero. -/
def rsiVal (x : List ℚ) (n : ℕ) (i : ℕ) : Option ℚ :=
  if i = 0 then none
  else
    match recMA (1 / (n : ℚ)) (gains x) n (i - 1),
          recMA (1 / (n : ℚ)) (losses x) n (i - 1) with
    | some g, some l => some (if l = 0 then 100 else 100 - 100 / (1 + g / l))
    | _, _ => none

/-- Modelled from the spec: the True Range,
`TR[i] = max (high[i]-low[i]) (max |high[i]-close[i-1]| |low[i]-close[i-1]|)`
with `TR[0] = high[0]-low[0]`. -/
def trueRange (h l c : List ℚ) : List ℚ :=
  (List.range h.length).map (fun i =>
    if i = 0 then h.getD 0 0 - l.getD 0 0
    else max (h.getD i 0 - l.getD i 0)
      (max |h.getD i 0 - c.getD (i - 1) 0| |l.getD i 0 - c.getD (i - 1) 0|))

/-- Modelled from the spec: ATR — the WILDMA of the True Range. -/
def atrVal (h l c : List ℚ) (n i : ℕ) : Option ℚ :=
  recMA (1 / (n : ℚ)) (trueRange h l c) n i

/-! ### Lemmas about the seeded recursion -/

theorem isSome_recMA (a : ℚ) (x : List ℚ) (n : ℕ) (hn : 0 < n) :
    ∀ i, ((recMA a x n i).isSome ↔ (n - 1 ≤ i ∧ i < x.length)) := by
  intro i
  induction i with
  | zero =>
      rw [recMA]
      split_ifs with h
      · simp only [Option.isSome_some, true_iff]
        exact ⟨by omega, h.2⟩
      · simp only [Option.isSome_none, Bool.false_eq_true, false_iff]
        intro ⟨h1, h2⟩
        exact h ⟨by omega, h2⟩
  | succ i ih =>
      rw [recMA]
      split_ifs with h1 h2 h3
      · simp only [Option.isSome_none, Bool.false_eq_true, false_iff]
        omega
      · simp only [Option.isSome_none, Bool.false_eq_true, false_iff]
        omega
      · simp only [Option.isSome_some, true_iff]
        omega
      · rw [Option.isSome_map']
        rw [ih]
        omega

theorem getD_congr_of_take_eq {x x' : List ℚ} {m k : ℕ}
    (h : x.take m = x'.take m) (hk : k < m) :
    x.getD k 0 = x'.getD k 0 := by
  have h1 : (x.take m)[k]? = (x'.take m)[k]? := by rw [h]
  rw [List.getElem?_take, List.getElem?_take, if_pos hk, if_pos hk] at h1
  rw [List.getD_eq_getElem?_getD, List.getD_eq_getElem?_getD, h1]

theorem length_min_of_take_eq {x x' : List ℚ} {m : ℕ}
    (h : x.take m = x'.take m) :
    min m x.length = min m x'.length := by
  have := congrArg List.length h
  simpa [List.length_take] using this

theorem recMA_congr_take (a : ℚ) (n m : ℕ) {x x' : List ℚ}
    (h : x.take m = x'.take m) :
    ∀ k, k < m → recMA a x n k = recMA a x' n k := by
  have hmin := length_min_of_take_eq h
  have htake : ∀ j, j ≤ m → x.take j = x'.take j := by
    intro j hj
    have h2 := congrArg (List.take j) h
    rw [List.take_take, List.take_take] at h2
    rwa [Nat.min_eq_left hj] at h2
  intro k
  induction k with
  | zero =>
      intro hk
      rw [recMA, recMA]
      have hlen : 0 < x.length ↔ 0 < x'.length := by omega
      rw [htake 1 (by omega)]
      simp only [hlen]
  | succ k ih =>
      intro hk
      rw [recMA, recMA]
      have hlen : x.length ≤ k + 1 ↔ x'.length ≤ k + 1 := by omega
      simp only [hlen]
      split_ifs with h1 h2 h3
      · rfl
      · rfl
      · rw [htake n (by omega)]
      · rw [ih (by omega), getD_congr_of_take_eq h (by omega)]

theorem take_deltas_congr {x x' : List ℚ} {m : ℕ}
    (h : x.take m = x'.take m) :
    (deltas x).take (m - 1) = (deltas x').take (m - 1) := by
  have hmin := length_min_of_take_eq h
  apply List.ext_getElem?
  intro k
  rw [List.getElem?_take, List.getElem?_take]
  by_cases hk : k < m - 1
  · rw [if_pos hk, if_pos hk]
    simp only [deltas, List.getElem?_map]
    have hiff : k < x.length - 1 ↔ k < x'.length - 1 := by omega
    by_cases hkx : k < x.length - 1
    · rw [List.getElem?_range hkx, List.getElem?_range (hiff.mp hkx)]
      simp only [Option.map_some']
      rw [getD_congr_of_take_eq h (by omega), getD_congr_of_take_eq h (by omega)]
    · rw [List.getElem?_eq_none (by simp; omega),
        List.getElem?_eq_none (by simp; omega)]
      rfl
  · rw [if_neg hk, if_neg hk]

theorem take_trueRange_congr {h h' l l' c c' : List ℚ} {m : ℕ}
    (hh : h.take m = h'.take m) (hl : l.take m = l'.take m)
    (hc : c.take m = c'.take m) :
    (trueRange h l c).take m = (trueRange h' l' c').take m := by
  have hmin := length_min_of_take_eq hh
  apply List.ext_getElem?
  intro k
  rw [List.getElem?_take, List.getElem?_take]
  by_cases hk : k < m
  · rw [if_pos hk, if_pos hk]
    simp only [trueRange, List.getElem?_map]
    have hiff : k < h.length ↔ k < h'.length := by omega
    by_cases hkx : k < h.length
    · rw [List.getElem?_range hkx, List.getElem?_range (hiff.mp hkx)]
      simp only [Option.map_some']
      by_cases hk0 : k = 0
      · subst hk0
        rw [if_pos rfl, if_pos rfl,
          getD_congr_of_take_eq hh (by omega), getD_congr_of_take_eq hl (by omega)]
      · rw [if_neg hk0, if_neg hk0,
          getD_congr_of_take_eq hh (by omega), getD_congr_of_take_eq hl (by omega),
          getD_congr_of_take_eq hc (by omega)]
    · rw [List.getElem?_eq_none (by simp; omega),
        List.getElem?_eq_none (by simp; omega)]
      rfl
  · rw [if_neg hk, if_neg hk]

/-- C7: for the EMA, WILDMA, RSI and ATR recursions, two inputs that agree
at all indices strictly below `i` produce the same output at every index
`j < i` — changing a value at index `i` or later never alters earlier
outputs. -/
theorem recursion_prefix_stability
    (x x' hs hs' ls ls' cs cs' : List ℚ) (n i j : ℕ)
    (hx : x.take i = x'.take i) (hh : hs.take i = hs'.take i)
    (hl : ls.take i = ls'.take i) (hc : cs.take i = cs'.take i)
    (hj : j < i) :
    emaVal x n j = emaVal x' n j
    ∧ wildmaVal x n j = wildmaVal x' n j
    ∧ rsiVal x n j = rsiVal x' n j
    ∧ atrVal hs ls cs n j = atrVal hs' ls' cs' n j := by
  refine ⟨recMA_congr_take _ n i hx j hj, recMA_congr_take _ n i hx j hj,
    ?_, ?_⟩
  · rcases Nat.eq_zero_or_pos j with rfl | hj0
    · rfl
    · have hgd : (gains x).take (i - 1) = (gains x').take (i - 1) := by
        rw [gains, gains, ← List.map_take, ← List.map_take, take_deltas_congr hx]
      have hld : (losses x).take (i - 1) = (losses x').take (i - 1) := by
        rw [losses, losses, ← List.map_take, ← List.map_take, take_deltas_congr hx]
      rw [rsiVal, rsiVal, if_neg (by omega), if_neg (by omega),
        recMA_congr_take _ n (i - 1) hgd (j - 1) (by omega),
        recMA_congr_take _ n (i - 1) hld (j - 1) (by omega)]
  · rw [atrVal, atrVal,
      recMA_congr_take _ n i (take_trueRange_congr hh hl hc) j hj]

/-- Witness for C7: inputs agreeing strictly below index 2 and differing at
index 2, compared at index 1. -/
theorem recursion_prefix_stability_witness :
    emaVal [1, 2, 3] 2 1 = emaVal [1, 2, 7] 2 1
    ∧ wildmaVal [1, 2, 3] 2 1 = wildmaVal [1, 2, 7] 2 1
    ∧ rsiVal [1, 2, 3] 2 1 = rsiVal [1, 2, 7] 2 1
    ∧ atrVal [3, 4, 5] [1, 2, 3] [2, 3, 4] 2 1
        = atrVal [3, 4, 5] [1, 2, 9] [2, 3, 4] 2 1 :=
  recursion_prefix_stability [1, 2, 3] [1, 2, 7] [3, 4, 5] [3, 4, 5]
    [1, 2, 3] [1, 2, 9] [2, 3, 4] [2, 3, 4] 2 2 1
    rfl rfl rfl rfl (by omega)

/-! ### The EMA seed and recursion -/

theorem getCell_map_some {x : List ℚ} {k : ℕ} (h : k < x.length) :
    getCell (x.map some) k = some (x.getD k 0) := by
  rw [getCell_eq_getElem?, List.getElem?_map, List.getElem?_eq_getElem h]
  rw [List.getD_eq_getElem?_getD, List.getElem?_eq_getElem h]
  rfl

theorem collectSome_map_some (l : List ℚ) :
    collectSome (l.map some) = some l := by
  induction l with
  | nil => rfl
  | cons a rest ih => simp [collectSome, ih]

theorem range_map_getD_eq_take {x : List ℚ} {n : ℕ} (h : n ≤ x.length) :
    (List.range n).map (fun k => x.getD k 0) = x.take n := by
  apply List.ext_getElem (by simp; omega)
  intro k h1 h2
  simp only [List.getElem_map, List.getElem_range, List.getElem_take]
  simp only [List.length_map, List.length_range] at h1
  rw [List.getD_eq_getElem?_getD, List.getElem?_eq_getElem (by omega)]
  rfl

theorem recMA_seed (a : ℚ) (x : List ℚ) (n : ℕ) (hn : 0 < n)
    (hlen : n - 1 < x.length) :
    recMA a x n (n - 1) = some ((x.take n).sum / (n : ℚ)) := by
  rcases n with _ | m
  · omega
  · rcases m with _ | m
    · rw [show (1 - 1 : ℕ) = 0 from rfl, recMA,
        if_pos ⟨rfl, by omega⟩]
      norm_num
    · rw [show (m + 2 - 1 : ℕ) = m + 1 from rfl, recMA]
      rw [if_neg (by omega), if_neg (by omega), if_pos rfl]

theorem getCell_ema {x : List ℚ} {n i : ℕ} (h : i < x.length) :
    getCell (ema x n) i = emaVal x n i := by
  rw [ema, getCell_map_range h]

/-- C3: for every value list `x` and positive window `n`, the EMA is
defined exactly at the chart indexes `i ≥ n - 1`; its first value, at
`n - 1`, is the SMA of the first `n` values (and agrees with the `sma`
reducer there), and each later value satisfies
`ema[i] = ema[i-1] + a * (x[i] - ema[i-1])` with `a = 2 / (n + 1)`. -/
theorem ema_spec (x : List ℚ) (n : ℕ) (hn : 0 < n) :
    (∀ i, i < x.length → ((getCell (ema x n) i).isSome ↔ n - 1 ≤ i))
    ∧ (∀ i, x.length ≤ i → getCell (ema x n) i = none)
    ∧ (n - 1 < x.length →
        getCell (ema x n) (n - 1) = some ((x.take n).sum / (n : ℚ))
          ∧ getCell (ema x n) (n - 1) = getCell (sma (x.map some) n) (n - 1))
    ∧ (∀ i, n ≤ i → i < x.length →
        ∃ p, getCell (ema x n) (i - 1) = some p
          ∧ getCell (ema x n) i
              = some (p + (2 / ((n : ℚ) + 1)) * (x.getD i 0 - p))) := by
  refine ⟨?_, ?_, ?_, ?_⟩
  · intro i hi
    rw [getCell_ema hi, emaVal, isSome_recMA _ _ _ hn]
    omega
  · intro i hi
    apply getCell_eq_none_of_le
    simpa [ema] using hi
  · intro hlen
    have hseed : getCell (ema x n) (n - 1)
        = some ((x.take n).sum / (n : ℚ)) := by
      rw [getCell_ema hlen, emaVal, recMA_seed _ _ _ hn hlen]
    refine ⟨hseed, ?_⟩
    have hlen' : n - 1 < (x.map some).length := by simpa using hlen
    rw [hseed, sma, getCell_reduce hlen', if_neg (by omega)]
    have hwin : windowCells (x.map some) n (n - 1)
        = ((List.range n).map (fun k => x.getD k 0)).map some := by
      rw [windowCells, List.map_map]
      apply List.map_congr_left
      intro k hk
      rw [List.mem_range] at hk
      have hidx : n - 1 + 1 - n + k = k := by omega
      rw [hidx]
      exact getCell_map_some (by omega)
    rw [hwin, collectSome_map_some, range_map_getD_eq_take (by omega)]
    rfl
  · intro i hge hi
    have hi1 : i - 1 < x.length := by omega
    have hsome : (getCell (ema x n) (i - 1)).isSome := by
      rw [getCell_ema hi1, emaVal, isSome_recMA _ _ _ hn]
      omega
    rcases hp : getCell (ema x n) (i - 1) with _ | p
    · rw [hp] at hsome; simp at hsome
    · refine ⟨p, rfl, ?_⟩
      rcases Nat.exists_eq_add_of_le hge with ⟨d, rfl⟩
      rcases Nat.exists_eq_add_of_lt hn with ⟨m, hm⟩
      have hj : n + d = (n + d - 1) + 1 := by omega
      rw [getCell_ema hi, emaVal, hj, recMA]
      rw [if_neg (by omega), if_neg (by omega), if_neg (by omega)]
      rw [getCell_ema hi1, emaVal] at hp
      rw [hp]
      rfl

/-- Witness for C3: the theorem applied to `x = [1, 2, 3, 4]`, `n = 2`,
with the recursion conjunct taken at index 2. -/
theorem ema_spec_witness :
    ∃ p, getCell (ema [1, 2, 3, 4] 2) 1 = some p
      ∧ getCell (ema [1, 2, 3, 4] 2) 2
          = some (p + (2 / ((2 : ℚ) + 1)) * (([(1 : ℚ), 2, 3, 4].getD 2 0) - p)) :=
  (ema_spec [1, 2, 3, 4] 2 (by decide)).2.2.2 2 (by decide) (by decide)

/-! ## The ZigZag extractor -/

/-- The kind of a swing point. -/
inductive SwingKind
  | High
  | Low
deriving DecidableEq

/-- A swing point: candle index, price, and kind.  Produced by the ZigZag
extractor, ordered by index, consecutive points of alternating kind. -/
structure SwingPoint where
  index : ℕ
  price : ℚ
  kind : SwingKind
deriving DecidableEq

/-- ZigZag parameters: `depth` (minimum bars from the last confirmed swing
before the tentative extreme may move), `deviation` (minimum percent price
move), `backstep` (minimum bars past a tentative swing before it can be
finalized). -/
structure ZZParams where
  depth : ℕ
  deviation : ℚ
  backstep : ℕ
deriving DecidableEq

/-- The ZigZag scan state: confirmed swings, oldest first, and the current
tentative extreme. -/
structure ZZState where
  confirmed : List SwingPoint
  tent : Option SwingPoint
deriving DecidableEq

/-- The opposite swing kind. -/
def flipKind : SwingKind → SwingKind
  | .High => .Low
  | .Low => .High

/-- The candle value relevant for a given swing kind. -/
def candVal (highs lows : List ℚ) : SwingKind → ℕ → ℚ
  | .High, i => highs.getD i 0
  | .Low, i => lows.getD i 0

/-- Whether a new candle value is at least as extreme as the tentative
one, on the tentative side. -/
def betterFor : SwingKind → ℚ → ℚ → Bool
  | .High, newv, oldv => decide (oldv ≤ newv)
  | .Low, newv, oldv => decide (newv ≤ oldv)

/-- Whether the price at candle `i` has moved at least `deviation` percent
against the tentative extreme — the trigger for changing direction. -/
def flipTrigger (p : ZZParams) (highs lows : List ℚ) (t : SwingPoint) (i : ℕ) : Bool :=
  match t.kind with
  | .High => decide (lows.getD i 0 ≤ t.price - t.price * p.deviation / 100)
  | .Low => decide (t.price + t.price * p.deviation / 100 ≤ highs.getD i 0)

/-- Whether candle `i` is at least `depth` bars from the last confirmed
swing and the move from it satisfies `deviation`, so that the tentative
extreme may be replaced. -/
def replaceOK (p : ZZParams) (highs lows : List ℚ) (st : ZZState)
    (k : SwingKind) (i : ℕ) : Bool :=
  match st.confirmed.getLast? with
  | none => true
  | some lastp =>
      decide (lastp.index + p.depth ≤ i) &&
      decide (p.deviation * |lastp.price|
        ≤ |candVal highs lows k i - lastp.price| * 100)

/-- Modelled from the spec: one step of the ZigZag scan at candle `i`.
With no tentative extreme yet, the candle starts one (seeking a high).  A
tentative extreme is finalized once the scan is at least
`max backstep 1` bars past it and the price has moved `deviation` percent
against it; the next tentative extreme, of the opposite kind, starts at
the current candle.  Otherwise a better same-side extreme satisfying the
`depth`/`deviation` constraints from the last confirmed swing replaces
the tentative one. -/
def zzStep (p : ZZParams) (highs lows : List ℚ) (st : ZZState) (i : ℕ) : ZZState :=
  match st.tent with
  | none => ⟨st.confirmed, some ⟨i, highs.getD i 0, .High⟩⟩
  | some t =>
      if flipTrigger p highs lows t i && decide (t.index + max p.backstep 1 ≤ i) then
        ⟨st.confirmed ++ [t],
         some ⟨i, candVal highs lows (flipKind t.kind) i, flipKind t.kind⟩⟩
      else if betterFor t.kind (candVal highs lows t.kind i) t.price
          && replaceOK p highs lows st t.kind i then
        ⟨st.confirmed, some ⟨i, candVal highs lows t.kind i, t.kind⟩⟩
      else st

/-- The ZigZag scan over the first `m` candles. -/
def zzRun (p : ZZParams) (highs lows : List ℚ) : ℕ → ZZState
  | 0 => ⟨[], none⟩
  | (i + 1) => zzStep p highs lows (zzRun p highs lows i) i

/-- Modelled from the spec: the ZigZag extractor — the confirmed swing
points after scanning the whole chart. -/
def zigzag (p : ZZParams) (highs lows : List ℚ) : List SwingPoint :=
  (zzRun p highs lows highs.length).confirmed

/-- The ZigZag scan invariant after processing the first `i` candles. -/
abbrev ZZInv (st : ZZState) (i : ℕ) : Prop :=
  st.confirmed.Chain' (fun a b => a.index < b.index ∧ a.kind ≠ b.kind)
  ∧ (∀ q ∈ st.confirmed, q.index < i)
  ∧ (st.tent = none → st.confirmed = [])
  ∧ (∀ t, st.tent = some t → t.index < i ∧
      ∀ lastp, st.confirmed.getLast? = some lastp →
        lastp.index < t.index ∧ lastp.kind ≠ t.kind)

theorem kind_ne_flipKind (k : SwingKind) : k ≠ flipKind k := by
  cases k <;> simp [flipKind]

theorem zzStep_inv {p : ZZParams} {highs lows : List ℚ} {st : ZZState} {i : ℕ}
    (h : ZZInv st i) : ZZInv (zzStep p highs lows st i) (i + 1) := by
  obtain ⟨conf, tent⟩ := st
  obtain ⟨hchain, hmem, hnone, htent⟩ := h
  rcases tent with _ | t
  · have hconf : conf = [] := hnone rfl
    subst hconf
    show ZZInv ⟨[], some ⟨i, highs.getD i 0, .High⟩⟩ (i + 1)
    refine ⟨?_, ?_, ?_, ?_⟩
    · exact List.chain'_nil
    · intro q hq
      cases hq
    · intro h
      cases h
    · intro t' ht'
      obtain rfl : (⟨i, highs.getD i 0, .High⟩ : SwingPoint) = t' :=
        Option.some_injective _ ht'
      refine ⟨by dsimp only; omega, ?_⟩
      intro lastp hlast
      cases hlast
  · simp only [zzStep]
    by_cases hflip : (flipTrigger p highs lows t i
        && decide (t.index + max p.backstep 1 ≤ i)) = true
    · rw [if_pos hflip]
      rw [Bool.and_eq_true, decide_eq_true_eq] at hflip
      have htI : t.index < i := by
        have := hflip.2
        omega
      have htlast := htent t rfl
      refine ⟨?_, ?_, ?_, ?_⟩
      · rw [List.chain'_append]
        refine ⟨hchain, List.chain'_singleton t, ?_⟩
        intro x hx y hy
        rw [Option.mem_def] at hx hy
        simp only [List.head?_cons, Option.some.injEq] at hy
        subst hy
        exact htlast.2 x hx
      · intro q hq
        rcases List.mem_append.mp hq with hq | hq
        · exact Nat.lt_succ_of_lt (hmem q hq)
        · rcases List.mem_singleton.mp hq with rfl
          omega
      · intro h
        cases h
      · intro t' ht'
        obtain rfl : (⟨i, candVal highs lows (flipKind t.kind) i, flipKind t.kind⟩
            : SwingPoint) = t' := Option.some_injective _ ht'
        refine ⟨by dsimp only; omega, ?_⟩
        intro lastp hlast
        rw [List.getLast?_concat] at hlast
        obtain rfl : t = lastp := Option.some_injective _ hlast
        refine ⟨?_, kind_ne_flipKind _⟩
        dsimp only
        omega
    · rw [if_neg hflip]
      by_cases hrep : (betterFor t.kind (candVal highs lows t.kind i) t.price
          && replaceOK p highs lows ⟨conf, some t⟩ t.kind i) = true
      · rw [if_pos hrep]
        have htlast := htent t rfl
        refine ⟨?_, ?_, ?_, ?_⟩
        · exact hchain
        · exact fun q hq => Nat.lt_succ_of_lt (hmem q hq)
        · intro h
          cases h
        · intro t' ht'
          obtain rfl : (⟨i, candVal highs lows t.kind i, t.kind⟩ : SwingPoint) = t' :=
            Option.some_injective _ ht'
          refine ⟨by dsimp only; omega, ?_⟩
          intro lastp hlast
          have h2 := htlast.2 lastp hlast
          have h1 := htlast.1
          exact ⟨by dsimp only; omega, h2.2⟩
      · rw [if_neg hrep]
        refine ⟨?_, ?_, ?_, ?_⟩
        · exact hchain
        · exact fun q hq => Nat.lt_succ_of_lt (hmem q hq)
        · intro h
          cases h
        · intro t' ht'
          obtain rfl : t = t' := Option.some_injective _ ht'
          have h3 := htent t rfl
          exact ⟨by omega, h3.2⟩

theorem zzRun_inv (p : ZZParams) (highs lows : List ℚ) :
    ∀ m, ZZInv (zzRun p highs lows m) m := by
  intro m
  induction m with
  | zero =>
      refine ⟨?_, ?_, ?_, ?_⟩
      · exact List.chain'_nil
      · intro q hq
        cases hq
      · intro h
        rfl
      · intro t ht
        cases ht
  | succ m ih => exact zzStep_inv ih

theorem zzRun_confirmed_nil (p : ZZParams) (highs lows : List ℚ) :
    ∀ m, m ≤ max p.backstep 1 → (zzRun p highs lows m).confirmed = [] := by
  intro m
  induction m with
  | zero => intro _; rfl
  | succ m ih =>
      intro hm
      have hprev := ih (by omega)
      show (zzStep p highs lows (zzRun p highs lows m) m).confirmed = []
      have hinv := zzRun_inv p highs lows m
      obtain ⟨conf, tent⟩ : ∃ c t, zzRun p highs lows m = ZZState.mk c t :=
        ⟨_, _, rfl⟩
      rcases tent with ⟨c, tn⟩
      rw [tn] at hinv hprev ⊢
      dsimp only at hprev
      rcases c with _ | t
      · rw [zzStep]
        exact hprev
      · have htI : t.index < m := (hinv.2.2.2 t rfl).1
        simp only [zzStep]
        rw [if_neg ?_]
        · split_ifs with h2
          · exact hprev
          · exact hprev
        · rw [Bool.and_eq_true, decide_eq_true_eq]
          intro hcon
          omega

/-- C2: for every parameter triple and every pair of high/low series, the
ZigZag output has strictly increasing candle indexes and strictly
alternating kinds between consecutive points, the indexes are globally
strictly increasing, empty input yields an empty list, and so does a
chart too short for any swing to be finalized. -/
theorem zigzag_spec (p : ZZParams) (highs lows : List ℚ) :
    (zigzag p highs lows).Chain'
      (fun a b => a.index < b.index ∧ a.kind ≠ b.kind)
    ∧ (zigzag p highs lows).Pairwise (fun a b => a.index < b.index)
    ∧ (highs = [] → zigzag p highs lows = [])
    ∧ (highs.length ≤ max p.backstep 1 → zigzag p highs lows = []) := by
  have hchain := (zzRun_inv p highs lows highs.length).1
  refine ⟨hchain, ?_, ?_, ?_⟩
  · have hlt : (zigzag p highs lows).Chain' (fun a b => a.index < b.index) :=
      List.Chain'.imp (fun a b hab => hab.1) hchain
    haveI : IsTrans SwingPoint (fun a b => a.index < b.index) :=
      ⟨fun a b c h1 h2 => lt_trans h1 h2⟩
    rw [List.chain'_iff_pairwise] at hlt
    exact hlt
  · intro h
    rw [zigzag, h]
    rfl
  · intro h
    exact zzRun_confirmed_nil p highs lows highs.length h

/-- Witness for C2: the theorem applied to the default parameters and an
empty chart. -/
theorem zigzag_spec_witness :
    zigzag ⟨20, 1, 2⟩ [] [] = []
    ∧ (zigzag ⟨20, 1, 2⟩ [] []).Chain'
        (fun a b => a.index < b.index ∧ a.kind ≠ b.kind) :=
  ⟨(zigzag_spec ⟨20, 1, 2⟩ [] []).2.2.1 rfl, (zigzag_spec ⟨20, 1, 2⟩ [] []).1⟩

/-! ## The trend scorer: formula language -/

/-- A token of the scoring-formula language. -/
inductive Tok
  | num (value : ℚ)
  | ident (name : String)
  | plus
  | minus
  | star
  | slash
  | lparen
  | rparen
deriving DecidableEq

/-- Characters a metric identifier may start with. -/
def isIdentStart (c : Char) : Bool := c.isAlpha || c = '_'

/-- Characters a metric identifier may continue with (dotted paths such as
`hits.violations` are single identifiers). -/
def isIdentChar (c : Char) : Bool := c.isAlpha || c.isDigit || c = '.' || c = '_'

/-- The numeric value of a digit string. -/
def digitsToNat (cs : List Char) : ℕ :=
  cs.foldl (fun acc c => 10 * acc + (c.toNat - '0'.toNat)) 0

/-- Tokenizes a character list, spending one unit of fuel per token; an
unrecognized character fails. -/
def tokenizeAux : ℕ → List Char → Option (List Tok)
  | _, [] => some []
  | 0, _ :: _ => none
  | (fuel + 1), c :: rest =>
      if c = ' ' then tokenizeAux fuel rest
      else if c = '+' then (tokenizeAux fuel rest).map (fun ts => Tok.plus :: ts)
      else if c = '-' then (tokenizeAux fuel rest).map (fun ts => Tok.minus :: ts)
      else if c = '*' then (tokenizeAux fuel rest).map (fun ts => Tok.star :: ts)
      else if c = '/' then (tokenizeAux fuel rest).map (fun ts => Tok.slash :: ts)
      else if c = '(' then (tokenizeAux fuel rest).map (fun ts => Tok.lparen :: ts)
      else if c = ')' then (tokenizeAux fuel rest).map (fun ts => Tok.rparen :: ts)
      else if c.isDigit then
        (tokenizeAux fuel ((c :: rest).dropWhile Char.isDigit)).map
          (fun ts => Tok.num (digitsToNat ((c :: rest).takeWhile Char.isDigit)) :: ts)
      else if isIdentStart c then
        (tokenizeAux fuel ((c :: rest).dropWhile isIdentChar)).map
          (fun ts => Tok.ident (String.mk ((c :: rest).takeWhile isIdentChar)) :: ts)
      else none

/-- Tokenizes a formula string. -/
def tokenize (s : String) : Option (List Tok) :=
  tokenizeAux s.length s.toList

/-- The expression tree of a scoring formula: arithmetic over the
enumerated hit-metric identifiers. -/
inductive Expr
  | num (value : ℚ)
  | metric (name : String)
  | neg (e : Expr)
  | addE (e1 e2 : Expr)
  | subE (e1 e2 : Expr)
  | mulE (e1 e2 : Expr)
  | divE (e1 e2 : Expr)
deriving DecidableEq

mutual

/-- Parses a factor: number, identifier, unary minus, or parenthesis. -/
def parseFactor : ℕ → List Tok → Option (Expr × List Tok)
  | 0, _ => none
  | (fuel + 1), toks =>
      match toks with
      | Tok.num q :: rest => some (Expr.num q, rest)
      | Tok.ident s :: rest => some (Expr.metric s, rest)
      | Tok.minus :: rest =>
          (parseFactor fuel rest).map (fun pr => (Expr.neg pr.1, pr.2))
      | Tok.lparen :: rest =>
          match parseAddSub fuel rest with
          | some (e, Tok.rparen :: rest2) => some (e, rest2)
          | _ => none
      | _ => none

/-- Parses the multiplicative tail after a parsed factor. -/
def parseMulTail : ℕ → Expr → List Tok → Option (Expr × List Tok)
  | 0, _, _ => none
  | (fuel + 1), acc, toks =>
      match toks with
      | Tok.star :: rest =>
          match parseFactor fuel rest with
          | some (e, rest2) => parseMulTail fuel (Expr.mulE acc e) rest2
          | none => none
      | Tok.slash :: rest =>
          match parseFactor fuel rest with
          | some (e, rest2) => parseMulTail fuel (Expr.divE acc e) rest2
          | none => none
      | _ => some (acc, toks)

/-- Parses a product of factors. -/
def parseMul : ℕ → List Tok → Option (Expr × List Tok)
  | 0, _ => none
  | (fuel + 1), toks =>
      match parseFactor fuel toks with
      | some (e, rest) => parseMulTail fuel e rest
      | none => none

/-- Parses the additive tail after a parsed product. -/
def parseAddTail : ℕ → Expr → List Tok → Option (Expr × List Tok)
  | 0, _, _ => none
  | (fuel + 1), acc, toks =>
      match toks with
      | Tok.plus :: rest =>
          match parseMul fuel rest with
          | some (e, rest2) => parseAddTail fuel (Expr.addE acc e) rest2
          | none => none
      | Tok.minus :: rest =>
          match parseMul fuel rest with
          | some (e, rest2) => parseAddTail fuel (Expr.subE acc e) rest2
          | none => none
      | _ => some (acc, toks)

/-- Parses a sum of products. -/
def parseAddSub : ℕ → List Tok → Option (Expr × List Tok)
  | 0, _ => none
  | (fuel + 1), toks =>
      match parseMul fuel toks with
      | some (e, rest) => parseAddTail fuel e rest
      | none => none

end

/-- The hit-metric identifiers enumerated by the API surface (each full
name with its abbreviation, exactly as documented for `find_trends`). -/
def knownIdents : List String :=
  ["hits.violations", "v", "hits.bounceDown", "bd", "hits.bounceUp", "bu",
   "hits.bounceDownCandles", "bdc", "hits.bounceUpCandles", "buc",
   "hits.bounceDownStrict", "bds", "hits.bounceUpStrict", "bus",
   "hits.bounceDownStrictCandles", "bdsc", "hits.bounceUpStrictCandles", "busc",
   "hits.peaksDown", "pd", "hits.peaksUp", "pu", "hits.number", "n",
   "hits.percent", "pc", "hits.candlesAbove", "ca", "hits.candlesBelow", "cb",
   "hits.maxConfirmatioinDistance", "mcd", "slopePecent", "length", "l",
   "priceDeviation.p25th", "priceDeviation.p50th", "priceDeviation.p75th",
   "linePointsBase", "linePointsWeight", "trendsAccumulated"]

/-- Whether a token is an identifier outside the enumerated hit-metric
names. -/
def unknownIdentTok : Tok → Bool
  | Tok.ident name => decide (name ∉ knownIdents)
  | _ => false

/-- The tokenizer as a fallible step. -/
def tokenizeE (s : String) : Except String (List Tok) :=
  match tokenize s with
  | none => Except.error "formula: unrecognized character"
  | some toks => Except.ok toks

/-- The identifier check: an identifier outside the enumerated hit-metric
names is an error before any expression is built. -/
def checkIdents (toks : List Tok) : Except String (List Tok) :=
  match toks.find? unknownIdentTok with
  | some (Tok.ident name) => Except.error ("unknown identifier: " ++ name)
  | some _ => Except.error "formula: internal error"
  | none => Except.ok toks

/-- The expression parser over a checked token list. -/
def parseToks (toks : List Tok) : Except String Expr :=
  match parseAddSub (4 * (toks.length + 1)) toks with
  | some (e, []) => Except.ok e
  | _ => Except.error "formula: syntax error"

/-- Modelled from the spec: formula parsing — tokenize, reject unknown
identifiers, then parse the arithmetic expression. -/
def parseFormula (s : String) : Except String Expr :=
  match tokenizeE s with
  | Except.error msg => Except.error msg
  | Except.ok toks =>
      match checkIdents toks with
      | Except.error msg => Except.error msg
      | Except.ok toks2 => parseToks toks2

/-! ## The trend scorer: candidates, metrics and ranking -/

deriving instance DecidableEq for Except

/-- A weighted base point for trend enumeration. -/
structure BasePoint where
  index : ℕ
  weight : ℚ
deriving DecidableEq

/-- The hit metrics of a candidate trend line, one value per identifier
enumerated in the API surface. -/
structure HitMetrics where
  violations : ℚ
  bounceDown : ℚ
  bounceUp : ℚ
  bounceDownCandles : ℚ
  bounceUpCandles : ℚ
  bounceDownStrict : ℚ
  bounceUpStrict : ℚ
  bounceDownStrictCandles : ℚ
  bounceUpStrictCandles : ℚ
  peaksDown : ℚ
  peaksUp : ℚ
  number : ℚ
  percent : ℚ
  candlesAbove : ℚ
  candlesBelow : ℚ
  maxConfirmatioinDistance : ℚ
  slopePecent : ℚ
  length : ℚ
  priceDeviationP25 : ℚ
  priceDeviationP50 : ℚ
  priceDeviationP75 : ℚ
  linePointsBase : ℚ
  linePointsWeight : ℚ
  trendsAccumulated : ℚ
deriving DecidableEq

/-- The read-only value of a metric identifier (full name or
abbreviation); `none` for an identifier outside the enumerated set. -/
def metricValue (m : HitMetrics) (s : String) : Option ℚ :=
  if s = "hits.violations" ∨ s = "v" then some m.violations
  else if s = "hits.bounceDown" ∨ s = "bd" then some m.bounceDown
  else if s = "hits.bounceUp" ∨ s = "bu" then some m.bounceUp
  else if s = "hits.bounceDownCandles" ∨ s = "bdc" then some m.bounceDownCandles
  else if s = "hits.bounceUpCandles" ∨ s = "buc" then some m.bounceUpCandles
  else if s = "hits.bounceDownStrict" ∨ s = "bds" then some m.bounceDownStrict
  else if s = "hits.bounceUpStrict" ∨ s = "bus" then some m.bounceUpStrict
  else if s = "hits.bounceDownStrictCandles" ∨ s = "bdsc" then
    some m.bounceDownStrictCandles
  else if s = "hits.bounceUpStrictCandles" ∨ s = "busc" then
    some m.bounceUpStrictCandles
  else if s = "hits.peaksDown" ∨ s = "pd" then some m.peaksDown
  else if s = "hits.peaksUp" ∨ s = "pu" then some m.peaksUp
  else if s = "hits.number" ∨ s = "n" then some m.number
  else if s = "hits.percent" ∨ s = "pc" then some m.percent
  else if s = "hits.candlesAbove" ∨ s = "ca" then some m.candlesAbove
  else if s = "hits.candlesBelow" ∨ s = "cb" then some m.candlesBelow
  else if s = "hits.maxConfirmatioinDistance" ∨ s = "mcd" then
    some m.maxConfirmatioinDistance
  else if s = "slopePecent" then some m.slopePecent
  else if s = "length" ∨ s = "l" then some m.length
  else if s = "priceDeviation.p25th" then some m.priceDeviationP25
  else if s = "priceDeviation.p50th" then some m.priceDeviationP50
  else if s = "priceDeviation.p75th" then some m.priceDeviationP75
  else if s = "linePointsBase" then some m.linePointsBase
  else if s = "linePointsWeight" then some m.linePointsWeight
  else if s = "trendsAccumulated" then some m.trendsAccumulated
  else none

/-- Evaluates a formula tree against the hit metrics; a pure tree walk. -/
def evalExpr (m : HitMetrics) : Expr → ℚ
  | Expr.num q => q
  | Expr.metric s => (metricValue m s).getD 0
  | Expr.neg e => -(evalExpr m e)
  | Expr.addE e1 e2 => evalExpr m e1 + evalExpr m e2
  | Expr.subE e1 e2 => evalExpr m e1 - evalExpr m e2
  | Expr.mulE e1 e2 => evalExpr m e1 * evalExpr m e2
  | Expr.divE e1 e2 => evalExpr m e1 / evalExpr m e2

/-- A percentile of a value list, by rank in the sorted order. -/
def percentileOf (l : List ℚ) (p : ℕ) : ℚ :=
  (l.mergeSort (fun x y => decide (x ≤ y))).getD ((p * l.length) / 100) 0

/-- Modelled from the spec: the hit metrics of the candidate line through
base points `a` and `b`, walking every candle from `a.index` to the end of
the chart and classifying it against the line.  The spec does not give
formulas for the bounce counts, the confirmation distance or the
accumulated-trend count, so those read as zero; the geometric counts, the
percentage, the slope, the length, the price-deviation percentiles and
the base-point aggregates are computed from the walk. -/
def computeHits (highs lows : List ℚ) (field : String) (a b : BasePoint) :
    HitMetrics :=
  let vals := if field = "low" then lows else highs
  let va := vals.getD a.index 0
  let vb := vals.getD b.index 0
  let slope := (vb - va) / ((b.index : ℚ) - (a.index : ℚ))
  let idxs := (List.range vals.length).drop a.index
  let dists := idxs.map (fun i => vals.getD i 0 - (va + slope * ((i : ℚ) - (a.index : ℚ))))
  let above := (dists.filter (fun d => decide (0 < d))).length
  let below := (dists.filter (fun d => decide (d < 0))).length
  let touches := (dists.filter (fun d => decide (d = 0))).length
  { violations := if field = "low" then below else above
    bounceDown := 0
    bounceUp := 0
    bounceDownCandles := 0
    bounceUpCandles := 0
    bounceDownStrict := 0
    bounceUpStrict := 0
    bounceDownStrictCandles := 0
    bounceUpStrictCandles := 0
    peaksDown := 0
    peaksUp := 0
    number := touches
    percent := 100 * (touches : ℚ) / (idxs.length : ℚ)
    candlesAbove := above
    candlesBelow := below
    maxConfirmatioinDistance := 0
    slopePecent := 100 * slope
    length := (b.index : ℚ) - (a.index : ℚ)
    priceDeviationP25 := percentileOf (dists.map (fun d => |d|)) 25
    priceDeviationP50 := percentileOf (dists.map (fun d => |d|)) 50
    priceDeviationP75 := percentileOf (dists.map (fun d => |d|)) 75
    linePointsBase := 2
    linePointsWeight := a.weight + b.weight
    trendsAccumulated := 0 }

/-- The error taxonomy of the engine. -/
inductive EngineErr
  | FormulaError (msg : String)
  | ConfigurationError (msg : String)
  | PreconditionError (msg : String)
  | ComputationError (msg : String)
deriving DecidableEq

/-- A scored candidate trend line. -/
structure Trend where
  fromP : BasePoint
  toP : BasePoint
  strength : ℚ
deriving DecidableEq

/-- All ordered pairs of base points, in enumeration order. -/
def enumPairs : List BasePoint → List (BasePoint × BasePoint)
  | [] => []
  | p :: rest => (rest.map (fun q => (p, q))) ++ enumPairs rest

/-- Modelled from the spec: the scored, non-pruned candidate list — every
enumerated pair the discard callback keeps, scored by the formula over its
hit metrics, in enumeration order. -/
def scoredCandidates (highs lows : List ℚ) (pts : List BasePoint)
    (field : String) (e : Expr)
    (discard : BasePoint → BasePoint → Bool) : List Trend :=
  ((enumPairs pts).filter (fun pq => !(discard pq.1 pq.2))).map
    (fun pq => ⟨pq.1, pq.2, evalExpr (computeHits highs lows field pq.1 pq.2) e⟩)

/-- Descending comparison on strength, the sort order of `find_trends`. -/
def trendLE (a b : Trend) : Bool := decide (b.strength ≤ a.strength)

/-- Modelled from the spec: `find_trends`.  The formula is parsed first —
failing with a `FormulaError` before any enumeration or scoring — then
every pair of base points (minus the discarded ones) is scored, sorted
descending by strength with a stable merge sort, and the top
`strongestTrendsPercentage` fraction is returned.  The `atrLen` parameter
configures the ATR normalization inside hit metrics whose formulas the
spec leaves unspecified; it does not enter the ranking contract. -/
def find_trends (highs lows : List ℚ) (pts : List BasePoint) (field : String)
    (formula : String) (pct : ℚ) (atrLen : ℕ)
    (discard : BasePoint → BasePoint → Bool) : Except EngineErr (List Trend) :=
  match parseFormula formula with
  | Except.error msg => Except.error (EngineErr.FormulaError msg)
  | Except.ok e =>
      let cands := scoredCandidates highs lows pts field e discard
      Except.ok ((cands.mergeSort trendLE).take
        (min cands.length (Int.ceil (pct * (cands.length : ℚ))).toNat))

/-! ### Ranking properties of the trend scorer -/

theorem trendLE_trans : ∀ a b c : Trend,
    trendLE a b = true → trendLE b c = true → trendLE a c = true := by
  intro a b c h1 h2
  simp only [trendLE, decide_eq_true_eq] at h1 h2 ⊢
  exact le_trans h2 h1

theorem trendLE_total : ∀ a b : Trend,
    (trendLE a b || trendLE b a) = true := by
  intro a b
  simp only [trendLE, Bool.or_eq_true, decide_eq_true_eq]
  exact le_total b.strength a.strength

/-- C4: whenever `find_trends` succeeds, the returned list is sorted in
descending strength order and is a prefix of the stable merge sort of the
scored candidate list (the same input therefore always produces the same
output); with retention 1 it is a permutation of all enumerated
non-discarded candidates, and any two candidates in enumeration order
with non-increasing strengths keep their relative order. -/
theorem find_trends_spec (highs lows : List ℚ) (pts : List BasePoint)
    (field formula : String) (pct : ℚ) (atrLen : ℕ)
    (discard : BasePoint → BasePoint → Bool) (res : List Trend)
    (hok : find_trends highs lows pts field formula pct atrLen discard
      = Except.ok res) :
    res.Pairwise (fun a b => b.strength ≤ a.strength)
    ∧ ∃ e, parseFormula formula = Except.ok e
        ∧ (∃ k, res
            = ((scoredCandidates highs lows pts field e discard).mergeSort
                trendLE).take k)
        ∧ (pct = 1 →
            res.Perm (scoredCandidates highs lows pts field e discard)
            ∧ ∀ a b : Trend,
                [a, b].Sublist (scoredCandidates highs lows pts field e discard) →
                b.strength ≤ a.strength → [a, b].Sublist res) := by
  rcases hpf : parseFormula formula with msg | e
  · have hval : find_trends highs lows pts field formula pct atrLen discard
        = Except.error (EngineErr.FormulaError msg) := by
      rw [find_trends, hpf]
    rw [hval] at hok
    cases hok
  · have hval : find_trends highs lows pts field formula pct atrLen discard
        = Except.ok
          (((scoredCandidates highs lows pts field e discard).mergeSort
            trendLE).take
            (min (scoredCandidates highs lows pts field e discard).length
              (Int.ceil (pct * ((scoredCandidates highs lows pts field e
                discard).length : ℚ))).toNat)) := by
      rw [find_trends, hpf]
    rw [hval] at hok
    simp only [Except.ok.injEq] at hok
    have hres : res = ((scoredCandidates highs lows pts field e discard).mergeSort
        trendLE).take
          (min (scoredCandidates highs lows pts field e discard).length
            (Int.ceil (pct * ((scoredCandidates highs lows pts field e
              discard).length : ℚ))).toNat) :=
      hok.symm
    have hsorted : ((scoredCandidates highs lows pts field e discard).mergeSort
        trendLE).Pairwise (fun a b => b.strength ≤ a.strength) := by
      have h := List.sorted_mergeSort trendLE_trans trendLE_total
        (scoredCandidates highs lows pts field e discard)
      exact h.imp (fun hab => by
        simpa [trendLE, decide_eq_true_eq] using hab)
    refine ⟨?_, e, rfl, ⟨_, hres⟩, ?_⟩
    · rw [hres]
      exact hsorted.sublist (List.take_sublist _ _)
    · intro hpct
      subst hpct
      have hcount : min (scoredCandidates highs lows pts field e discard).length
          (Int.ceil ((1 : ℚ) * ((scoredCandidates highs lows pts field e
            discard).length : ℚ))).toNat
          = (scoredCandidates highs lows pts field e discard).length := by
        rw [one_mul, Int.ceil_natCast]
        simp
      rw [hcount] at hres
      have hfull : res = (scoredCandidates highs lows pts field e discard).mergeSort
          trendLE := by
        rw [hres]
        apply List.take_of_length_le
        rw [List.length_mergeSort]
      constructor
      · rw [hfull]
        exact List.mergeSort_perm _ _
      · intro a b hsub hab
        rw [hfull]
        exact List.pair_sublist_mergeSort trendLE_trans trendLE_total
          (by simpa [trendLE, decide_eq_true_eq] using hab) hsub

/-- Witness for C4: the theorem applied at a concrete successful call. -/
theorem find_trends_spec_witness :
    find_trends [] [] [] "high" "hits.percent" 1 14 (fun _ _ => false)
        = Except.ok []
    ∧ ([] : List Trend).Pairwise (fun a b => b.strength ≤ a.strength) := by
  have hpf : parseFormula "hits.percent"
      = Except.ok (Expr.metric "hits.percent") := by decide
  have hok : find_trends [] [] [] "high" "hits.percent" 1 14 (fun _ _ => false)
      = Except.ok [] := by
    rw [find_trends, hpf]
    simp [scoredCandidates, enumPairs]
  exact ⟨hok, (find_trends_spec [] [] [] "high" "hits.percent" 1 14
    (fun _ _ => false) [] hok).1⟩

/-- C8: a formula containing an identifier outside the enumerated
hit-metric names makes `find_trends` fail with a `FormulaError` from the
parsing stage, and the result is the same whatever the base points, candle
data or other scoring parameters are — no enumeration or scoring work
enters into it. -/
theorem find_trends_formula_error (highs lows : List ℚ) (pts : List BasePoint)
    (field formula : String) (pct : ℚ) (atrLen : ℕ)
    (discard : BasePoint → BasePoint → Bool) (toks : List Tok) (name : String)
    (htok : tokenize formula = some toks)
    (hmem : Tok.ident name ∈ toks) (hunk : name ∉ knownIdents) :
    (∃ msg, find_trends highs lows pts field formula pct atrLen discard
        = Except.error (EngineErr.FormulaError msg))
    ∧ ∀ (highs' lows' : List ℚ) (pts' : List BasePoint) (field' : String)
        (pct' : ℚ) (atrLen' : ℕ) (discard' : BasePoint → BasePoint → Bool),
        find_trends highs' lows' pts' field' formula pct' atrLen' discard'
          = find_trends highs lows pts field formula pct atrLen discard := by
  have hperr : ∃ msg, parseFormula formula = Except.error msg := by
    have hfind : (toks.find? unknownIdentTok).isSome := by
      rw [List.find?_isSome]
      refine ⟨Tok.ident name, hmem, ?_⟩
      exact decide_eq_true hunk
    rcases hf : toks.find? unknownIdentTok with _ | t
    · rw [hf] at hfind
      simp at hfind
    · have hp := List.find?_some hf
      cases t with
      | ident s =>
          refine ⟨"unknown identifier: " ++ s, ?_⟩
          have htokE : tokenizeE formula = Except.ok toks := by
            rw [tokenizeE, htok]
          have hchk : checkIdents toks
              = Except.error ("unknown identifier: " ++ s) := by
            rw [checkIdents, hf]
          rw [parseFormula, htokE]
          show (match checkIdents toks with
            | Except.error msg => Except.error msg
            | Except.ok toks2 => parseToks toks2)
            = Except.error ("unknown identifier: " ++ s)
          rw [hchk]
      | num q => simp [unknownIdentTok] at hp
      | plus => simp [unknownIdentTok] at hp
      | minus => simp [unknownIdentTok] at hp
      | star => simp [unknownIdentTok] at hp
      | slash => simp [unknownIdentTok] at hp
      | lparen => simp [unknownIdentTok] at hp
      | rparen => simp [unknownIdentTok] at hp
  obtain ⟨msg, hm⟩ := hperr
  have herr : ∀ (h2 l2 : List ℚ) (pts2 : List BasePoint) (f2 : String)
      (pct2 : ℚ) (atr2 : ℕ) (d2 : BasePoint → BasePoint → Bool),
      find_trends h2 l2 pts2 f2 formula pct2 atr2 d2
        = Except.error (EngineErr.FormulaError msg) := by
    intro h2 l2 pts2 f2 pct2 atr2 d2
    rw [find_trends, hm]
  refine ⟨⟨msg, herr highs lows pts field pct atrLen discard⟩, ?_⟩
  intro highs' lows' pts' field' pct' atrLen' discard'
  rw [herr highs' lows' pts' field' pct' atrLen' discard',
    herr highs lows pts field pct atrLen discard]

/-- Witness for C8: the theorem applied at the unknown identifier `foo`. -/
theorem find_trends_formula_error_witness :
    ∃ msg, find_trends [] [] [] "high" "foo" 1 14 (fun _ _ => false)
        = Except.error (EngineErr.FormulaError msg) :=
  (find_trends_formula_error [] [] [] "high" "foo" 1 14 (fun _ _ => false)
    [Tok.ident "foo"] "foo" (by rfl) (by decide) (by decide)).1

/-! ## The indicator script: standard-deviation bands

`src/trendspider_indicator.js` computes `core = sma(close, 20)`,
`deviationMultiplied = mult(stdev(close, 20), 2)` and paints `core`,
`add(core, deviationMultiplied)` and `sub(core, deviationMultiplied)`.
The standard deviation takes a square root, so these series are modelled
over `ℝ`. -/

/-- Modelled from the spec: population standard deviation of the window
(denominator = length), as a windowed reducer over `ℝ`. -/
noncomputable def stdev (s : Series ℝ) (n : ℕ) : Series ℝ :=
  reduce s n (fun w =>
    Real.sqrt (((w.map (fun x => (x - w.sum / (n : ℝ)) ^ 2)).sum) / (n : ℝ)))

/-- The indicator script's core line, `sma(close, 20)`. -/
noncomputable def core (close : Series ℝ) : Series ℝ :=
  sma close 20

/-- The indicator script's deviation term, `mult(stdev(close, 20), 2)`. -/
noncomputable def deviationMultiplied (close : Series ℝ) : Series ℝ :=
  mult (stdev close 20) 2

/-- The indicator script's upper painted line,
`add(core, deviationMultiplied)`. -/
noncomputable def upperLine (close : Series ℝ) : Series ℝ :=
  add (core close) (deviationMultiplied close)

/-- The indicator script's lower painted line,
`sub(core, deviationMultiplied)`. -/
noncomputable def lowerLine (close : Series ℝ) : Series ℝ :=
  sub (core close) (deviationMultiplied close)

/-! ### Cell lemmas for the band combinators -/

theorem length_add (s t : Series α) :
    (add s t).length = min s.length t.length := by
  simp [add]

theorem length_sub (s t : Series α) :
    (sub s t).length = min s.length t.length := by
  simp [sub]

theorem length_mult (s : Series α) (c : α) : (mult s c).length = s.length := by
  simp [mult]

theorem length_reduce (s : Series α) (n : ℕ) (f : List α → α) :
    (reduce s n f).length = s.length := by
  simp [reduce]

theorem getCell_mult (s : Series α) (c : α) (i : ℕ) :
    getCell (mult s c) i = (getCell s i).map (fun x => x * c) := by
  rw [getCell_eq_getElem?, getCell_eq_getElem?, mult, List.getElem?_map]
  rcases s[i]? with _ | a
  · rfl
  · rfl

theorem getCell_add {s t : Series α} {i : ℕ}
    (hs : i < s.length) (ht : i < t.length) :
    getCell (add s t) i =
      match getCell s i, getCell t i with
      | some x, some y => some (x + y)
      | _, _ => none := by
  have hlen : i < (add s t).length := by
    rw [length_add]
    omega
  rw [getCell_of_lt hlen, getCell_of_lt hs, getCell_of_lt ht]
  unfold add
  rw [List.getElem_zipWith]

theorem getCell_sub {s t : Series α} {i : ℕ}
    (hs : i < s.length) (ht : i < t.length) :
    getCell (sub s t) i =
      match getCell s i, getCell t i with
      | some x, some y => some (x - y)
      | _, _ => none := by
  have hlen : i < (sub s t).length := by
    rw [length_sub]
    omega
  rw [getCell_of_lt hlen, getCell_of_lt hs, getCell_of_lt ht]
  unfold sub
  rw [List.getElem_zipWith]

theorem length_core (close : Series ℝ) : (core close).length = close.length := by
  rw [core, sma, length_reduce]

theorem length_deviationMultiplied (close : Series ℝ) :
    (deviationMultiplied close).length = close.length := by
  rw [deviationMultiplied, length_mult, stdev, length_reduce]

/-- C10: in the indicator script, wherever the 20-candle window over
`close` is fully populated the painted upper and lower lines are
symmetric about the core — `upper[i] - core[i] = core[i] - lower[i]
= 2 * stdev(close, 20)[i] ≥ 0` — and at every index `i < 19` the core,
upper and lower painted series all hold `none`. -/
theorem indicator_bands_spec (close : Series ℝ) (i : ℕ) :
    (19 ≤ i → i < close.length →
      (∀ k, k < 20 → getCell close (i - 19 + k) ≠ none) →
      ∃ c d, getCell (core close) i = some c
        ∧ getCell (stdev close 20) i = some d
        ∧ getCell (upperLine close) i = some (c + 2 * d)
        ∧ getCell (lowerLine close) i = some (c - 2 * d)
        ∧ (c + 2 * d) - c = c - (c - 2 * d)
        ∧ (c + 2 * d) - c = 2 * d
        ∧ 0 ≤ 2 * d)
    ∧ (i < 19 →
        getCell (core close) i = none
        ∧ getCell (upperLine close) i = none
        ∧ getCell (lowerLine close) i = none) := by
  have hs20 : ∀ j, j < close.length → j < (core close).length := by
    intro j hj
    rw [length_core]
    exact hj
  have hd20 : ∀ j, j < close.length → j < (deviationMultiplied close).length := by
    intro j hj
    rw [length_deviationMultiplied]
    exact hj
  constructor
  · intro hge hi hfull
    have hfull' : ∀ k, k < 20 → getCell close (i + 1 - 20 + k) ≠ none := by
      intro k hk
      have hidx : i + 1 - 20 + k = i - 19 + k := by omega
      rw [hidx]
      exact hfull k hk
    obtain ⟨w, hcoll⟩ : ∃ w, collectSome (windowCells close 20 i) = some w :=
      ⟨_, collectSome_of_no_none (windowCells_no_none hfull')⟩
    have hc : getCell (core close) i = some (w.sum / (20 : ℝ)) := by
      rw [core, sma, getCell_reduce hi, if_neg (by omega), hcoll]
      rfl
    have hd : getCell (stdev close 20) i
        = some (Real.sqrt
            (((w.map (fun x => (x - w.sum / (20 : ℝ)) ^ 2)).sum) / (20 : ℝ))) := by
      rw [stdev, getCell_reduce hi, if_neg (by omega), hcoll]
      rfl
    have hdev : getCell (deviationMultiplied close) i
        = some (Real.sqrt
            (((w.map (fun x => (x - w.sum / (20 : ℝ)) ^ 2)).sum) / (20 : ℝ)) * 2) := by
      rw [deviationMultiplied, getCell_mult, hd]
      rfl
    refine ⟨w.sum / (20 : ℝ),
      Real.sqrt (((w.map (fun x => (x - w.sum / (20 : ℝ)) ^ 2)).sum) / (20 : ℝ)),
      hc, hd, ?_, ?_, by ring, by ring, ?_⟩
    · have hu : getCell (upperLine close) i
          = some (w.sum / (20 : ℝ)
            + Real.sqrt
                (((w.map (fun x => (x - w.sum / (20 : ℝ)) ^ 2)).sum) / (20 : ℝ)) * 2) := by
        rw [upperLine, getCell_add (hs20 i hi) (hd20 i hi), hc, hdev]
      rw [hu, mul_comm]
    · have hl : getCell (lowerLine close) i
          = some (w.sum / (20 : ℝ)
            - Real.sqrt
                (((w.map (fun x => (x - w.sum / (20 : ℝ)) ^ 2)).sum) / (20 : ℝ)) * 2) := by
        rw [lowerLine, getCell_sub (hs20 i hi) (hd20 i hi), hc, hdev]
      rw [hl, mul_comm]
    · have hnn := Real.sqrt_nonneg
        ((((w.map (fun x => (x - w.sum / (20 : ℝ)) ^ 2)).sum)) / (20 : ℝ))
      linarith
  · intro hlt
    by_cases hi : i < close.length
    · have hcore : getCell (core close) i = none := by
        rw [core, sma, getCell_reduce hi, if_pos (by omega)]
      refine ⟨hcore, ?_, ?_⟩
      · rw [upperLine, getCell_add (hs20 i hi) (hd20 i hi), hcore]
      · rw [lowerLine, getCell_sub (hs20 i hi) (hd20 i hi), hcore]
    · have hlen : close.length ≤ i := by omega
      refine ⟨?_, ?_, ?_⟩
      · apply getCell_eq_none_of_le
        rw [length_core]
        exact hlen
      · apply getCell_eq_none_of_le
        rw [upperLine, length_add, length_core, length_deviationMultiplied]
        omega
      · apply getCell_eq_none_of_le
        rw [lowerLine, length_sub, length_core, length_deviationMultiplied]
        omega

/-- Witness for C10: the theorem applied to a constant 20-candle chart,
at the first fully-populated index and at an index inside the ramp-up. -/
theorem indicator_bands_spec_witness :
    (∃ c d, getCell (core (List.replicate 20 (some (1 : ℝ)))) 19 = some c
      ∧ getCell (stdev (List.replicate 20 (some (1 : ℝ))) 20) 19 = some d
      ∧ getCell (upperLine (List.replicate 20 (some (1 : ℝ)))) 19 = some (c + 2 * d)
      ∧ getCell (lowerLine (List.replicate 20 (some (1 : ℝ)))) 19 = some (c - 2 * d)
      ∧ (c + 2 * d) - c = c - (c - 2 * d)
      ∧ (c + 2 * d) - c = 2 * d
      ∧ 0 ≤ 2 * d)
    ∧ (getCell (core (List.replicate 20 (some (1 : ℝ)))) 3 = none
      ∧ getCell (upperLine (List.replicate 20 (some (1 : ℝ)))) 3 = none
      ∧ getCell (lowerLine (List.replicate 20 (some (1 : ℝ)))) 3 = none) := by
  constructor
  · apply (indicator_bands_spec (List.replicate 20 (some (1 : ℝ))) 19).1
    · norm_num
    · simp
    · intro k hk
      rw [getCell_eq_getElem?, List.getElem?_replicate, if_pos (by omega)]
      simp
  · exact (indicator_bands_spec (List.replicate 20 (some (1 : ℝ))) 3).2
      (by norm_num)

end TS
